import Mathlib

/-!
Verification of the gitree three-stage pipeline: repository discovery
(`internal/scanner`), concurrent status extraction (`internal/gitstatus`),
and deterministic tree assembly/rendering (`internal/tree`), against the
shared data model (`internal/models`).

Each Go function is shallowly embedded as a Lean function over explicit
models of its inputs.  External collaborators (the filesystem, the go-git
library) are represented by explicit data carrying the results of the
calls the code makes, so every code path of the embedded functions mirrors
a code path of the source.
-/

namespace Gitree

/-! ## Data model (`internal/models/*.go`)

Go `int` fields are modelled as `Int`; `error` fields as `Option String`
(`none` = nil); pointers to structs as `Option` of the struct. -/

namespace models

/-- `models.GitStatus`: Git status information for a repository.
Field defaults are the Go zero values, matching `&models.GitStatus{}`. -/
structure GitStatus where
  branch : String := ""
  isDetached : Bool := false
  hasRemote : Bool := false
  ahead : Int := 0
  behind : Int := 0
  hasStashes : Bool := false
  hasChanges : Bool := false
  error : String := ""
deriving DecidableEq

/-- `models.Repository`: a repository discovered during scanning. -/
structure Repository where
  path : String := ""
  name : String := ""
  isBare : Bool := false
  isSymlink : Bool := false
  gitStatus : Option GitStatus := none
  error : Option String := none
  hasTimeout : Bool := false
deriving DecidableEq

/-- Model of `filepath.IsAbs` on Unix: a path is absolute when it starts
with a slash. -/
def isAbsPath (s : String) : Bool :=
  match s.data with
  | [] => false
  | c :: _ => c == '/'

/-- `Repository.Validate`: returns `some message` where the Go method
returns a non-nil error, `none` where it returns nil. -/
def Repository.Validate (r : Repository) : Option String :=
  if r.path = "" then
    some "path cannot be empty: repository validation error"
  else if ¬ isAbsPath r.path then
    some "path must be absolute: repository validation error"
  else if r.name = "" then
    some "name cannot be empty: repository validation error"
  else if r.isBare && (match r.gitStatus with
      | some g => g.hasChanges
      | none => false) then
    some "bare repository cannot have uncommitted changes: repository validation error"
  else
    none

/-- `GitStatus.Validate`: returns `some message` where the Go method
returns a non-nil error, `none` where it returns nil. -/
def GitStatus.Validate (g : GitStatus) : Option String :=
  if g.branch = "" then
    some "branch cannot be empty: git status validation error"
  else if g.isDetached ∧ g.branch ≠ "DETACHED" then
    some "detached HEAD must have branch = DETACHED: git status validation error"
  else if ¬ g.hasRemote ∧ (g.ahead ≠ 0 ∨ g.behind ≠ 0) then
    some "no remote but ahead/behind counts are non-zero: git status validation error"
  else if g.ahead < 0 ∨ g.behind < 0 then
    some "ahead/behind counts cannot be negative: git status validation error"
  else
    none

/-- `models.TreeNode`: a node of the rendered hierarchy.  Inductive rather
than a structure because `Children` is a list of nodes. -/
inductive TreeNode where
  | mk (repository : Repository) (depth : Int) (isLast : Bool)
       (children : List TreeNode) (relativePath : String)

/-- Field accessor for `TreeNode.Repository`. -/
def TreeNode.repository : TreeNode → Repository
  | .mk r _ _ _ _ => r

/-- Field accessor for `TreeNode.Depth`. -/
def TreeNode.depth : TreeNode → Int
  | .mk _ d _ _ _ => d

/-- Field accessor for `TreeNode.IsLast`. -/
def TreeNode.isLast : TreeNode → Bool
  | .mk _ _ l _ _ => l

/-- Field accessor for `TreeNode.Children`. -/
def TreeNode.children : TreeNode → List TreeNode
  | .mk _ _ _ cs _ => cs

/-- Field accessor for `TreeNode.RelativePath`. -/
def TreeNode.relativePath : TreeNode → String
  | .mk _ _ _ _ p => p

/-- Functional update of the `IsLast` field (Go mutates in place). -/
def TreeNode.setIsLast (b : Bool) : TreeNode → TreeNode
  | .mk r d _ cs p => .mk r d b cs p

/-- Functional update of the `Depth` field (Go mutates in place). -/
def TreeNode.setDepth (d : Int) : TreeNode → TreeNode
  | .mk r _ l cs p => .mk r d l cs p

/-- Functional update of the `Children` field (Go mutates in place). -/
def TreeNode.setChildren (cs : List TreeNode) : TreeNode → TreeNode
  | .mk r d l _ p => .mk r d l cs p

/-- Ordering used by `TreeNode.SortChildren`: compare repository names
(`t.Children[i].Repository.Name < t.Children[j].Repository.Name`). -/
def nameLe (a b : TreeNode) : Prop := a.repository.name ≤ b.repository.name

instance : DecidableRel nameLe := fun a b =>
  inferInstanceAs (Decidable (a.repository.name ≤ b.repository.name))

instance : IsTotal TreeNode nameLe :=
  ⟨fun a b => le_total a.repository.name b.repository.name⟩

instance : IsTrans TreeNode nameLe :=
  ⟨fun _ _ _ h1 h2 => le_trans h1 h2⟩

/-- The `IsLast`-flag pass of `TreeNode.SortChildren`: Go sets
`child.IsLast = (i == len(t.Children)-1)` for every index `i`. -/
def markLast : List TreeNode → List TreeNode
  | [] => []
  | [t] => [t.setIsLast true]
  | t :: rest => t.setIsLast false :: markLast rest

/-- `TreeNode.SortChildren`, as a function on the children list: sort
alphabetically by repository name, then update the `IsLast` flags.
Go's `sort.Slice` guarantees only some sorted permutation; it is modelled
by insertion sort. -/
def TreeNode.SortChildren (children : List TreeNode) : List TreeNode :=
  markLast (List.insertionSort nameLe children)

end models

/-! ## Status extractor (`internal/gitstatus/status.go`)

The go-git library is an external collaborator.  A `RepoView` records the
results of the library calls `extractGitStatus` and its helpers make:
`repo.Head()`, `repo.Remotes()`, `repo.Reference(...)`,
`repo.CommitObject(...)`, `repo.Log(...)` and `repo.Worktree()` /
`worktree.Status()`.  Per the library contract (spec section 6),
`repo.Log(&git.LogOptions{From: h})` iterates every commit reachable from
`h` exactly once; it is modelled as a total function to a list. -/

namespace gitstatus

open models

/-- Commit identifiers (`plumbing.Hash`). -/
abbrev Hash := Nat

/-- Result of `repo.Head()`: whether the reference is a named branch
(`head.Name().IsBranch()`), its short name, and its hash. -/
structure HeadRef where
  isBranch : Bool
  shortName : String
  hash : Hash
deriving DecidableEq

/-- Result of `repo.Worktree()` followed by `worktree.Status()`:
bare repository, other open error, status error, or a clean flag. -/
inductive WorktreeOutcome where
  | bareRepo
  | openErr (e : String)
  | statusErr (e : String)
  | clean (isClean : Bool)
deriving DecidableEq

/-- The go-git call results consumed by one run of `extractGitStatus`. -/
structure RepoView where
  head : Except String HeadRef
  remotes : Except String (List String)
  reference : String → Except String Hash
  commitObject : Hash → Except String Hash
  log : Hash → List Hash
  worktree : WorktreeOutcome

/-- Error annotation of `extractUncommittedChanges`; the caller
distinguishes `git.ErrIsBareRepository` from other errors. -/
inductive WtErr where
  | bare
  | other (e : String)
deriving DecidableEq

/-- `plumbing.NewRemoteReferenceName(remote, branch)`. -/
def NewRemoteReferenceName (remote branch : String) : String :=
  "refs/remotes/" ++ remote ++ "/" ++ branch

/-- `extractBranch`: read HEAD; on a non-branch reference set the detached
flag and the `DETACHED` sentinel, otherwise the short branch name.
Returns the (possibly mutated) status together with the Go error. -/
def extractBranch (v : RepoView) (s : GitStatus) : GitStatus × Option String :=
  match v.head with
  | .error e => (s, some ("failed to get HEAD: " ++ e))
  | .ok head =>
    if head.isBranch then
      ({ s with isDetached := false, branch := head.shortName }, none)
    else
      ({ s with isDetached := true, branch := "DETACHED" }, none)

/-- `extractRemote`: `HasRemote` is true exactly when at least one remote
is configured; with no remotes it returns `errNoRemotes`. -/
def extractRemote (v : RepoView) (s : GitStatus) : GitStatus × Option String :=
  match v.remotes with
  | .error e => (s, some e)
  | .ok remotes =>
    if remotes.length > 0 then
      ({ s with hasRemote := true }, none)
    else
      ({ s with hasRemote := false }, some "no remotes configured")

/-- `countCommitsBetween`: collect the commits reachable from `to` into a
set, then count the commits reachable from `fr` that are not in it
(the Go loop increments a counter; the filter length is that count). -/
def countCommitsBetween (v : RepoView) (fr toH : Hash) : Int :=
  let toCommits := v.log toH
  (((v.log fr).filter (fun c => decide (c ∉ toCommits))).length : Int)

/-- `extractAheadBehind`: resolve the `origin` tracking reference of the
current branch and count divergence in both directions. -/
def extractAheadBehind (v : RepoView) (s : GitStatus) : GitStatus × Option String :=
  match v.head with
  | .error e => (s, some e)
  | .ok head =>
    let branchName := head.shortName
    let remoteBranchRefName := NewRemoteReferenceName "origin" branchName
    match v.reference remoteBranchRefName with
    | .error e => ({ s with ahead := 0, behind := 0 }, some e)
    | .ok remoteRef =>
      match v.commitObject head.hash with
      | .error e => (s, some e)
      | .ok localCommit =>
        match v.commitObject remoteRef with
        | .error e => (s, some e)
        | .ok remoteCommit =>
          let ahead := countCommitsBetween v localCommit remoteCommit
          let behind := countCommitsBetween v remoteCommit localCommit
          ({ s with ahead := ahead, behind := behind }, none)

/-- `extractStashes`: existence check of the `refs/stash` reference. -/
def extractStashes (v : RepoView) : Bool :=
  match v.reference "refs/stash" with
  | .error _ => false
  | .ok _ => true

/-- `extractUncommittedChanges`: bare repositories and worktree-open
failures short-circuit with `HasChanges = false`; otherwise `HasChanges`
is set from `wtStatus.IsClean()`. -/
def extractUncommittedChanges (v : RepoView) (s : GitStatus) :
    GitStatus × Option WtErr :=
  match v.worktree with
  | .bareRepo => ({ s with hasChanges := false }, some .bare)
  | .openErr e => ({ s with hasChanges := false }, some (.other ("failed to get worktree: " ++ e)))
  | .statusErr e => (s, some (.other ("failed to get worktree status: " ++ e)))
  | .clean isClean => ({ s with hasChanges := !isClean }, none)

/-- Result of `git.PlainOpen`. -/
inductive OpenOutcome where
  | opened (v : RepoView)
  | openFailed (e : String)

/-- The branch statement block of `extractGitStatus`: on an error the
status keeps running with `Branch = "N/A"` and the error recorded. -/
def branchStage (v : RepoView) (s : GitStatus) : GitStatus :=
  match extractBranch v s with
  | (s1, some msg) => { s1 with branch := "N/A", error := msg }
  | (s1, none) => s1

/-- The remote statement block of `extractGitStatus`: an error is
non-fatal and just means no remote. -/
def remoteStage (v : RepoView) (s : GitStatus) : GitStatus :=
  match extractRemote v s with
  | (s1, some _) => { s1 with hasRemote := false }
  | (s1, none) => s1

/-- The ahead/behind statement block of `extractGitStatus`: run only if a
remote exists; an error is recorded only if `status.Error` is still
empty. -/
def divergenceStage (v : RepoView) (s : GitStatus) : GitStatus :=
  if s.hasRemote then
    match extractAheadBehind v s with
    | (s1, some msg) => if s1.error = "" then { s1 with error := msg } else s1
    | (s1, none) => s1
  else s

/-- The stash statement of `extractGitStatus`. -/
def stashStage (v : RepoView) (s : GitStatus) : GitStatus :=
  { s with hasStashes := extractStashes v }

/-- The uncommitted-changes statement block of `extractGitStatus`:
`git.ErrIsBareRepository` is swallowed; any other error is recorded only
if `status.Error` is still empty. -/
def worktreeStage (v : RepoView) (s : GitStatus) : GitStatus :=
  match extractUncommittedChanges v s with
  | (s1, some (.other msg)) => if s1.error = "" then { s1 with error := msg } else s1
  | (s1, _) => s1

/-- `extractGitStatus`: open the repository, then run the five extraction
statement blocks in source order on the zero-valued status, each
independently fallible. -/
def extractGitStatus (o : OpenOutcome) : Except String GitStatus :=
  match o with
  | .openFailed e => .error ("failed to open repository: " ++ e)
  | .opened v =>
    .ok (worktreeStage v (stashStage v (divergenceStage v (remoteStage v (branchStage v {})))))

/-- Observable outcome of the goroutine/select in `Extract`: either the
inner `extractGitStatus` finished (delivering its result or error), or
the context fired first (per-unit timeout or cancellation). -/
inductive RunOutcome where
  | finished (o : OpenOutcome)
  | timedOut

/-- `Extract`: never returns a nil status.  On an inner error it returns a
degraded status with `Branch = "N/A"` carrying the error text; on timeout
it returns a degraded status with `Branch = "N/A"` and the explicit
`"timeout"` annotation, plus `ctx.Err()`. -/
def Extract (r : RunOutcome) : Option GitStatus × Option String :=
  match r with
  | .finished o =>
    match extractGitStatus o with
    | .ok status => (some status, none)
    | .error e => (some { branch := "N/A", error := e }, some e)
  | .timedOut => (some { branch := "N/A", error := "timeout" }, some "context deadline exceeded")

end gitstatus

/-! ## Repository locator (`internal/scanner/scanner.go`)

The filesystem is an external collaborator.  A `DirTree` node models one
directory together with the results of the stat calls the scanner makes
on it: the repository markers checked by `IsGitRepository`, the outcome
of `shouldVisit` (lstat/symlink resolution/inode bookkeeping), and the
outcome of reading its entries (`filepath.WalkDir`'s `ReadDir`).  Only
directories are modelled: `walkFunc` returns early for non-directories.
Paths are lists of segments. -/

namespace scanner

open models

/-- Outcome of `shouldVisit` for a directory: proceed (with the symlink
flag), skip silently (already-visited identity or a symlink target that
is not a directory), or fail (lstat error / broken symlink), which the
caller records as a diagnostic before pruning. -/
inductive VisitOutcome where
  | proceed (isSymlink : Bool)
  | skipDir
  | failed (e : String)
deriving DecidableEq

/-- Outcome of enumerating a directory's entries.  `WalkDir` reports a
permission failure through a second `walkFunc` call carrying the error
(recorded as a diagnostic, subtree pruned); any other error propagates
and aborts the walk. -/
inductive ReadDirOutcome where
  | ok
  | permDenied
  | fatalErr (e : String)
deriving DecidableEq

/-- One directory of the scanned filesystem with the stat results the
scanner observes at it. -/
inductive DirTree where
  | mk (name : String) (hasDotGit hasHeadFile hasRefsDir hasObjectsDir : Bool)
       (visit : VisitOutcome) (readDir : ReadDirOutcome) (children : List DirTree)

/-- Field accessor for the directory base name. -/
def DirTree.name : DirTree → String
  | .mk n _ _ _ _ _ _ _ => n

/-- Field accessor for the children list. -/
def DirTree.children : DirTree → List DirTree
  | .mk _ _ _ _ _ _ _ cs => cs

/-- `IsGitRepository`: a `.git` subdirectory means a regular repository;
otherwise a `HEAD` file plus `refs/` plus `objects/` directly under the
candidate path mean a bare repository.  The four flags are the stat
results for those four markers. -/
def IsGitRepository (hasDotGit hasHeadFile hasRefsDir hasObjectsDir : Bool) :
    Bool × Bool :=
  if hasDotGit then (true, false)
  else if hasHeadFile && hasRefsDir && hasObjectsDir then (true, true)
  else (false, false)

/-- A repository record appended by `walkFunc`, with its path kept as
segments.  Mirrors the `models.Repository` fields the scanner fills. -/
structure FoundRepo where
  pathSegs : List String
  name : String
  isBare : Bool
  isSymlink : Bool
deriving DecidableEq

/-- Aggregate state produced by a (sub)walk: the appended repositories,
the directory count, the non-fatal diagnostics, and — as instrumentation
for the pruning property — the list of paths at which `IsGitRepository`
was invoked. -/
structure WalkOut where
  repos : List FoundRepo := []
  dirCount : Nat := 0
  diags : List String := []
  examined : List (List String) := []
deriving DecidableEq

/-- Concatenation of two subwalk aggregates (list append mirrors the
sequential appends to the scanner state). -/
def WalkOut.append (a b : WalkOut) : WalkOut :=
  { repos := a.repos ++ b.repos
    dirCount := a.dirCount + b.dirCount
    diags := a.diags ++ b.diags
    examined := a.examined ++ b.examined }

/-- Path rendered as a string, for diagnostic messages. -/
def pathString (p : List String) : String := String.intercalate "/" p

mutual

/-- `walkFunc` + `filepath.WalkDir` over one directory at path `p`
(already including this node's name).  Order of checks as in the source:
the `shouldVisit` guard (diagnostic + prune on error, silent prune on
false), then `dirCount++` happens on the first `walkFunc` call, then the
repository-marker check; a match records the repository and prunes the
subtree; otherwise the entries are read and each child directory is
walked; a read failure is a diagnostic (permission) or fatal (other). -/
def walk (t : DirTree) (p : List String) : Except String WalkOut :=
  match t with
  | .mk name g hH hR hO visit readDir children =>
    match visit with
    | .failed e => .ok { dirCount := 1, diags := ["error checking path " ++ pathString p ++ ": " ++ e] }
    | .skipDir => .ok { dirCount := 1 }
    | .proceed isSym =>
      let rb := IsGitRepository g hH hR hO
      if rb.1 then
        .ok { repos := [⟨p, name, rb.2, isSym⟩], dirCount := 1, examined := [p] }
      else
        match readDir with
        | .fatalErr e => .error e
        | .permDenied =>
          .ok { dirCount := 1
                diags := ["permission denied: " ++ pathString p ++ ": permission denied"]
                examined := [p] }
        | .ok =>
          match walkChildren children p with
          | .error e => .error e
          | .ok w =>
            .ok { repos := w.repos, dirCount := 1 + w.dirCount, diags := w.diags
                  examined := p :: w.examined }

/-- Sequential walk of the child directories, aborting on a fatal error
as `filepath.WalkDir` does. -/
def walkChildren (ts : List DirTree) (p : List String) : Except String WalkOut :=
  match ts with
  | [] => .ok {}
  | c :: rest =>
    match walk c (p ++ [c.name]) with
    | .error e => .error e
    | .ok w1 =>
      match walkChildren rest p with
      | .error e => .error e
      | .ok w2 => .ok (w1.append w2)

end

/-- Model of `filepath.Base`: the last non-empty segment of the path. -/
def baseName (p : String) : String :=
  match ((p.splitOn "/").filter (fun s => s ≠ "")).getLast? with
  | some s => s
  | none => if isAbsPath p then "/" else "."

/-- Model of `filepath.Rel(root, target)` for the paths the scanner
produces: the target equal to the root yields `"."`; a target beneath the
root yields the remainder; anything else is an error (the callers treat
an error as "skip" / "fall back to the absolute path"). -/
def filepathRel (root p : String) : Except String String :=
  if p = root then .ok "."
  else if (root ++ "/").isPrefixOf p then .ok (p.drop (root.length + 1))
  else .error ("cannot make " ++ p ++ " relative to " ++ root)

/-- Conversion of a `FoundRepo` to the `models.Repository` record the
scanner appends (`scanner.go` builds it with these four fields). -/
def FoundRepo.toRepository (f : FoundRepo) : Repository :=
  { path := pathString f.pathSegs, name := f.name
    isBare := f.isBare, isSymlink := f.isSymlink }

/-- `scanner.buildTree`: a flat tree — with no repositories an empty root
node, otherwise one depth-1 child per repository (no intermediate
path-segment nodes), then `root.SortChildren()`. -/
def buildTree (rootPath : String) (repositories : List Repository) : TreeNode :=
  if repositories.isEmpty then
    TreeNode.mk { path := rootPath, name := baseName rootPath } 0 true [] "."
  else
    let children := repositories.map (fun repo =>
      let relPath := match filepathRel rootPath repo.path with
        | .ok r => r
        | .error _ => repo.path
      TreeNode.mk repo 1 false [] relPath)
    TreeNode.mk { path := rootPath, name := baseName rootPath } 0 false
      (TreeNode.SortChildren children) "."

/-- `q` lies strictly beneath `base` when it extends it by at least one
path segment. -/
def properlyBelow (base q : List String) : Prop :=
  ∃ s, s ≠ [] ∧ q = base ++ s

/-- Well-formed filesystem: within any directory the entry names are
distinct, as the filesystem guarantees. -/
inductive UniqueNames : DirTree → Prop
  | mk (name : String) (g hH hR hO : Bool) (v : VisitOutcome) (rd : ReadDirOutcome)
      (children : List DirTree) :
      (children.map DirTree.name).Nodup →
      (∀ c ∈ children, UniqueNames c) →
      UniqueNames (.mk name g hH hR hO v rd children)

/-- Inputs of one `Scan` call: the requested root path, the result of
`os.Stat` on it (`isDir` on success), the absolute path `filepath.Abs`
produces, and the directory tree found there. -/
structure ScanEnv where
  rootPath : String
  statRoot : Except String Bool
  absRoot : String
  rootTree : DirTree

/-- The `models.ScanResult` fields the claims are about. -/
structure ScanResultM where
  rootPath : String
  repositories : List Repository
  tree : TreeNode
  totalScanned : Nat
  totalRepos : Nat
  errors : List String

/-- `Scan`: validate that the root path exists and is a directory (a
violation is a fatal error with no result — note the source never checks
whether the path is absolute; it converts it with `filepath.Abs`), walk
the tree, then build the flat tree and assemble the result. -/
def Scan (env : ScanEnv) : Except String ScanResultM :=
  match env.statRoot with
  | .error e => .error ("cannot access root path: scan result validation error: " ++ e)
  | .ok isDir =>
    if !isDir then
      .error ("root path " ++ env.rootPath ++ " is not a directory: scan result validation error")
    else
      match walk env.rootTree [env.absRoot] with
      | .error e => .error ("error walking directory tree: " ++ e)
      | .ok w =>
        let repositories := w.repos.map FoundRepo.toRepository
        .ok { rootPath := env.absRoot
              repositories := repositories
              tree := buildTree env.absRoot repositories
              totalScanned := w.dirCount
              totalRepos := repositories.length
              errors := w.diags }

end scanner

/-! ## Status formatting (`internal/models/*.go`, `GitStatus.Format`)

The `fatih/color` Sprint functions are modelled as the identity on their
argument: with color disabled they return the text unchanged, and the
spec (section 4.4) requires that rendering with or without color produce
identical textual structure and symbols. -/

namespace models

/-- `GitStatus.Format`: branch label, then ahead/behind markers when the
counts are positive or the no-remote marker when no remote is configured,
then the stash and change markers, joined inside double brackets with a
separator, with a trailing ` error` when the partial-error text is set. -/
def GitStatus.Format (g : GitStatus) : String :=
  let parts : List String :=
    [g.branch]
      ++ (if g.hasRemote then
            (if g.ahead > 0 then ["↑" ++ toString g.ahead] else [])
              ++ (if g.behind > 0 then ["↓" ++ toString g.behind] else [])
          else ["○"])
      ++ (if g.hasStashes then ["$"] else [])
      ++ (if g.hasChanges then ["*"] else [])
  let result :=
    match parts with
    | [] => ""
    | [b] => "[[ " ++ b ++ " ]]"
    | b :: restParts => "[[ " ++ b ++ " | " ++ String.intercalate " " restParts ++ " ]]"
  if g.error ≠ "" then result ++ " error" else result

end models

/-! ## Tree builder and renderer (`internal/tree/builder+formatter`) -/

namespace tree

open models
open scanner (filepathRel)

/-- `tree.FormatOptions`. -/
structure FormatOptions where
  showRoot : Bool
  rootLabel : String
deriving DecidableEq

/-- `DefaultFormatOptions`. -/
def DefaultFormatOptions : FormatOptions := { showRoot := true, rootLabel := "." }

mutual

/-- Number of nodes of a tree; the termination measure of `sortTree`. -/
def nodeCount : TreeNode → Nat
  | .mk _ _ _ cs _ => 1 + listCount cs

/-- Number of nodes of a forest. -/
def listCount : List TreeNode → Nat
  | [] => 0
  | c :: cs => nodeCount c + listCount cs

end

mutual

/-- `insertIntoTree`: walk/create the chain of intermediate directory
nodes for every leading path segment, then append the repository node
itself under the last of them.  `consumed` accumulates the segments
already traversed (Go's `parts[:i+1]`), `currentPath` the joined
filesystem path. -/
def insertIntoTree (node : TreeNode) (repo : Repository) (parts : List String)
    (relPath : String) (currentPath : String) (consumed : List String) : TreeNode :=
  match parts with
  | [] => node
  | [_] =>
    node.setChildren (node.children ++ [TreeNode.mk repo 0 false [] relPath])
  | part :: rest =>
    let currentPath2 := currentPath ++ "/" ++ part
    let consumed2 := consumed ++ [part]
    node.setChildren
      (insertChildList node.children repo part rest relPath currentPath2 consumed2)
termination_by (parts.length, 0)

/-- The find-or-create step of `insertIntoTree` over the current node's
children: descend into the first child whose repository name equals the
segment, or append a fresh synthetic intermediate node. -/
def insertChildList (cs : List TreeNode) (repo : Repository) (part : String)
    (rest : List String) (relPath : String) (currentPath2 : String)
    (consumed2 : List String) : List TreeNode :=
  match cs with
  | [] =>
    let newNode := TreeNode.mk { path := currentPath2, name := part } 0 false []
      (String.intercalate "/" consumed2)
    [insertIntoTree newNode repo rest relPath currentPath2 consumed2]
  | c :: cs2 =>
    if c.repository.name == part then
      insertIntoTree c repo rest relPath currentPath2 consumed2 :: cs2
    else
      c :: insertChildList cs2 repo part rest relPath currentPath2 consumed2
termination_by (rest.length, cs.length + 1)

end

/-- `sortTree`: recursively sort every node's children alphabetically
(via `TreeNode.SortChildren`, which also sets the `IsLast` flags), and
set each child's depth to the parent's depth plus one before recursing
into it. -/
def sortTree (t : TreeNode) : TreeNode :=
  match t with
  | .mk r d l cs p =>
    .mk r d l ((TreeNode.SortChildren cs).attach.map
      (fun c => sortTree (c.val.setDepth (d + 1)))) p
termination_by nodeCount t
decreasing_by
  have hset : ∀ (x : TreeNode) (dd : Int), nodeCount (x.setDepth dd) = nodeCount x := by
    intro x dd; cases x; simp [TreeNode.setDepth, nodeCount]
  have hlast : ∀ (x : TreeNode) (b : Bool), nodeCount (x.setIsLast b) = nodeCount x := by
    intro x b; cases x; simp [TreeNode.setIsLast, nodeCount]
  have hmemc : ∀ (l : List TreeNode) (x : TreeNode), x ∈ l → nodeCount x ≤ listCount l := by
    intro l
    induction l with
    | nil => intro x hx; cases hx
    | cons a as ih =>
      intro x hx
      rcases List.mem_cons.mp hx with h | h
      · subst h; simp [listCount]
      · have := ih x h; simp [listCount]; omega
  have hperm : ∀ (l1 l2 : List TreeNode), l1.Perm l2 → listCount l1 = listCount l2 := by
    intro l1 l2 hp
    induction hp with
    | nil => rfl
    | cons a _ ih => simp [listCount, ih]
    | swap a b l => simp [listCount]; omega
    | trans _ _ ih1 ih2 => omega
  have hmark : ∀ (l : List TreeNode), listCount (markLast l) = listCount l := by
    intro l
    induction l using markLast.induct with
    | case1 => rfl
    | case2 t => simp [markLast, listCount, hlast]
    | case3 t t2 rest ih => simp [markLast, listCount, hlast] at ih ⊢; omega
  obtain ⟨cv, hcv⟩ := c
  have h1 := hmemc _ _ hcv
  unfold TreeNode.SortChildren at h1
  rw [hmark] at h1
  rw [hperm _ _ (List.perm_insertionSort nameLe _)] at h1
  simp only [hset, nodeCount]
  omega

/-- Exactly the final element of a sibling list carries the
"is-last-sibling" flag (vacuous for an empty list). -/
inductive LastFlags : List TreeNode → Prop
  | nil : LastFlags []
  | single (t : TreeNode) : t.isLast = true → LastFlags [t]
  | cons (t t2 : TreeNode) (rest : List TreeNode) :
      t.isLast = false → LastFlags (t2 :: rest) → LastFlags (t :: t2 :: rest)

/-- The tree invariant claimed for `Build`: at every node the children
are sorted alphabetically by repository name, exactly the final child is
flagged as last sibling, and each child's depth is its parent's depth
plus one. -/
inductive WellFormedTree : TreeNode → Prop
  | mk (r : Repository) (d : Int) (l : Bool) (cs : List TreeNode) (p : String) :
      List.Pairwise nameLe cs →
      LastFlags cs →
      (∀ c ∈ cs, c.depth = d + 1) →
      (∀ c ∈ cs, WellFormedTree c) →
      WellFormedTree (.mk r d l cs p)

/-- `tree.Build`: one root node labelled with the options' root label;
a nil repository slice returns it unchanged (without the sort pass);
otherwise every repository whose path can be made relative to the root
is inserted along its path segments, and the tree is recursively sorted
and annotated by `sortTree`. -/
def Build (rootPath : String) (repos : Option (List Repository))
    (opts : Option FormatOptions) : TreeNode :=
  let o := opts.getD DefaultFormatOptions
  let root := TreeNode.mk { path := rootPath, name := o.rootLabel } 0 false [] o.rootLabel
  match repos with
  | none => root
  | some rs =>
    let inserted := rs.foldl (fun acc repo =>
      match filepathRel rootPath repo.path with
      | .error _ => acc
      | .ok relPath =>
        insertIntoTree acc repo (relPath.splitOn "/") relPath rootPath []) root
    sortTree inserted

mutual

/-- `formatNode`: one line per node — prefix, connector (mid vs. last
sibling), name, inline status annotation and the error / timeout / bare
markers — followed by the children with the continuation prefix
(blank under a last sibling, vertical bar under a non-last one). -/
def formatNode (node : TreeNode) (pre : String) (isLast : Bool) : String :=
  match node with
  | .mk repo _ _ children _ =>
    let connector := if isLast then "└── " else "├── "
    let statusPart := match repo.gitStatus with
      | some g => " " ++ GitStatus.Format g
      | none => ""
    let errPart :=
      if repo.error.isSome && repo.gitStatus.isNone then " error" else ""
    let timeoutPart := match repo.gitStatus with
      | some g => if repo.hasTimeout ∧ g.error ≠ "" then " timeout" else ""
      | none => ""
    let barePart := match repo.gitStatus with
      | some g =>
        if repo.isBare ∧ ((GitStatus.Format g).splitOn "bare").length = 1 then
          " bare"
        else ""
      | none => ""
    let childPrefix := pre ++ (if isLast then "    " else "│   ")
    pre ++ connector ++ repo.name ++ statusPart ++ errPart ++ timeoutPart
      ++ barePart ++ "\n" ++ formatList children childPrefix
termination_by sizeOf node

/-- The loop over children in `Format`/`formatNode`: the last element is
rendered with the last-sibling connector. -/
def formatList (cs : List TreeNode) (pre : String) : String :=
  match cs with
  | [] => ""
  | [c] => formatNode c pre true
  | c :: rest => formatNode c pre false ++ formatList rest pre
termination_by sizeOf cs

end

/-- `tree.Format`: a nil root renders as the empty string; a root with no
children renders only the root label line (when `ShowRoot` is set);
otherwise the root label line followed by the recursively formatted
children. -/
def Format (root : Option TreeNode) (opts : Option FormatOptions) : String :=
  let o := opts.getD DefaultFormatOptions
  match root with
  | none => ""
  | some root =>
    if root.children.length = 0 then
      (if o.showRoot then o.rootLabel ++ "\n" else "")
    else
      (if o.showRoot then o.rootLabel ++ "\n" else "")
        ++ formatList root.children ""

end tree

/-! ## CLI pipeline glue (`cmd/gitree/main.go`)

Only the branch the claims are about: when the scan found no
repositories, `main` prints its own message and exits before the tree
renderer is ever invoked; otherwise it builds and formats the tree. -/

namespace cli

open models

/-- The stdout text `main` produces after a successful scan, as a
function of the discovered repository list (status population does not
change the list structure). -/
def mainRender (scanRepositories : List Repository) (cwd : String) : String :=
  if scanRepositories.length = 0 then
    "No Git repositories found in this directory.\n"
  else
    tree.Format (some (tree.Build cwd (some scanRepositories) none)) none

end cli

/-! ## Concurrent batch extraction (`ExtractBatch`, `gitstatus/status.go`)

`ExtractBatch` launches one task per path, admitted through a counting
semaphore of capacity `MaxConcurrency`, and collects one result per
completed task from a buffered channel.  The interleaved execution is
modelled as a small-step transition system: a state holds the paths
whose task has not started, the paths currently running, and the results
already collected.  The claims quantify over every schedule, i.e. every
sequence of transitions.  The cancellation signal never firing (the
premise of claim C3) means the model has no cancellation transition, and
`extract` is total because `Extract` always returns a non-nil status. -/

namespace batch

open models

/-- State of one `ExtractBatch` run. -/
structure BatchState where
  waiting : List String
  running : List String
  done : List (String × GitStatus)
deriving DecidableEq

/-- One scheduler step: a waiting task may start when a semaphore slot is
free (fewer than `C` running); a running task may finish, appending its
path's extraction result to the collected results.  Task identity is the
path, as in the source (`repos` is a map keyed by path). -/
inductive BatchStep (C : Nat) (extract : String → GitStatus) :
    BatchState → BatchState → Prop
  | start (p : String) (w1 w2 running : List String) (done : List (String × GitStatus)) :
      running.length < C →
      BatchStep C extract ⟨w1 ++ p :: w2, running, done⟩ ⟨w1 ++ w2, p :: running, done⟩
  | finish (p : String) (r1 r2 : List String) (waiting : List String)
      (done : List (String × GitStatus)) :
      BatchStep C extract ⟨waiting, r1 ++ p :: r2, done⟩ ⟨waiting, r1 ++ r2, (p, extract p) :: done⟩

/-- The initial state of a batch over `paths`. -/
def initState (paths : List String) : BatchState := ⟨paths, [], []⟩

/-- Reachability under the scheduler. -/
def Reaches (C : Nat) (extract : String → GitStatus) : BatchState → BatchState → Prop :=
  Relation.ReflTransGen (BatchStep C extract)

/-- A state in which no further step is possible (the batch has ended:
`wg.Wait` returned and the results channel is drained). -/
def Terminal (C : Nat) (extract : String → GitStatus) (s : BatchState) : Prop :=
  ∀ s2, ¬ BatchStep C extract s s2

end batch

/-! ## Theorems -/

open models gitstatus scanner tree batch

/-- The branch step leaves the remote/divergence/error fields alone. -/
theorem extractBranch_fields (v : RepoView) (s : GitStatus) :
    (extractBranch v s).1.hasRemote = s.hasRemote ∧
    (extractBranch v s).1.ahead = s.ahead ∧
    (extractBranch v s).1.behind = s.behind ∧
    (extractBranch v s).1.error = s.error ∧
    (extractBranch v s).1.hasChanges = s.hasChanges := by
  unfold extractBranch
  rcases v.head with e | h
  · simp
  · by_cases hb : h.isBranch <;> simp [hb]

/-- The remote step leaves the divergence/error/change fields alone. -/
theorem extractRemote_fields (v : RepoView) (s : GitStatus) :
    (extractRemote v s).1.ahead = s.ahead ∧
    (extractRemote v s).1.behind = s.behind ∧
    (extractRemote v s).1.error = s.error ∧
    (extractRemote v s).1.hasChanges = s.hasChanges := by
  unfold extractRemote
  rcases v.remotes with e | rs
  · simp
  · by_cases hr : rs.length > 0 <;> simp [hr]

/-- The divergence step leaves the remote/change fields alone. -/
theorem extractAheadBehind_fields (v : RepoView) (s : GitStatus) :
    (extractAheadBehind v s).1.hasRemote = s.hasRemote ∧
    (extractAheadBehind v s).1.hasChanges = s.hasChanges ∧
    (extractAheadBehind v s).1.error = s.error := by
  unfold extractAheadBehind
  rcases hh : v.head with e | h
  · simp
  · simp only []
    rcases hr : v.reference (NewRemoteReferenceName "origin" h.shortName) with e | rr
    · simp [hr]
    · rcases hl : v.commitObject h.hash with e | lc
      · simp [hr, hl]
      · rcases hrc : v.commitObject rr with e | rc <;> simp [hr, hl, hrc]

/-- The working-tree step leaves the remote/divergence fields alone. -/
theorem extractUncommittedChanges_fields (v : RepoView) (s : GitStatus) :
    (extractUncommittedChanges v s).1.hasRemote = s.hasRemote ∧
    (extractUncommittedChanges v s).1.ahead = s.ahead ∧
    (extractUncommittedChanges v s).1.behind = s.behind ∧
    (extractUncommittedChanges v s).1.error = s.error := by
  unfold extractUncommittedChanges
  rcases v.worktree with _ | e | e | c <;> simp

/-- On a successfully opened repository, `extractGitStatus` always
returns a status (`.ok`), and its remote/divergence fields come from the
step chain. -/
theorem extractGitStatus_opened (v : RepoView) :
    ∃ s, extractGitStatus (.opened v) = .ok s := by
  unfold extractGitStatus
  exact ⟨_, rfl⟩

/-- `branchStage` leaves the remote/divergence/change fields alone. -/
theorem branchStage_fields (v : RepoView) (s : GitStatus) :
    (branchStage v s).hasRemote = s.hasRemote ∧
    (branchStage v s).ahead = s.ahead ∧
    (branchStage v s).behind = s.behind ∧
    (branchStage v s).hasChanges = s.hasChanges := by
  unfold branchStage
  rcases hb : extractBranch v s with ⟨s1, e⟩
  have hf := extractBranch_fields v s
  rw [hb] at hf
  rcases e with _ | msg <;> simp_all

/-- `remoteStage` leaves the divergence/change fields alone. -/
theorem remoteStage_fields (v : RepoView) (s : GitStatus) :
    (remoteStage v s).ahead = s.ahead ∧
    (remoteStage v s).behind = s.behind ∧
    (remoteStage v s).error = s.error ∧
    (remoteStage v s).hasChanges = s.hasChanges := by
  unfold remoteStage
  rcases hb : extractRemote v s with ⟨s1, e⟩
  have hf := extractRemote_fields v s
  rw [hb] at hf
  rcases e with _ | msg <;> simp_all

/-- With an empty remote list `remoteStage` clears `hasRemote` — and
this is all it does besides keeping the fields of its input. -/
theorem remoteStage_noRemotes (v : RepoView) (s : GitStatus)
    (h : v.remotes = .ok []) :
    remoteStage v s = { s with hasRemote := false } := by
  unfold remoteStage extractRemote
  rw [h]
  simp

/-- `divergenceStage` leaves the remote/change fields alone, and is the
identity when no remote is configured. -/
theorem divergenceStage_fields (v : RepoView) (s : GitStatus) :
    (divergenceStage v s).hasRemote = s.hasRemote ∧
    (divergenceStage v s).hasChanges = s.hasChanges ∧
    (s.hasRemote = false → divergenceStage v s = s) := by
  unfold divergenceStage
  by_cases hr : s.hasRemote
  · rcases hb : extractAheadBehind v s with ⟨s1, e⟩
    have hf := extractAheadBehind_fields v s
    rw [hb] at hf
    rcases e with _ | msg
    · simp_all
    · by_cases he : s1.error = "" <;> simp_all
  · simp_all

/-- `stashStage` only touches the stash flag. -/
theorem stashStage_fields (v : RepoView) (s : GitStatus) :
    (stashStage v s).hasRemote = s.hasRemote ∧
    (stashStage v s).ahead = s.ahead ∧
    (stashStage v s).behind = s.behind ∧
    (stashStage v s).error = s.error ∧
    (stashStage v s).hasChanges = s.hasChanges := by
  unfold stashStage
  simp

/-- `worktreeStage` leaves the remote/divergence fields alone. -/
theorem worktreeStage_fields (v : RepoView) (s : GitStatus) :
    (worktreeStage v s).hasRemote = s.hasRemote ∧
    (worktreeStage v s).ahead = s.ahead ∧
    (worktreeStage v s).behind = s.behind := by
  unfold worktreeStage
  rcases hb : extractUncommittedChanges v s with ⟨s1, e⟩
  have hf := extractUncommittedChanges_fields v s
  rw [hb] at hf
  rcases e with _ | msg
  · simp_all
  · rcases msg with _ | m
    · simp_all
    · by_cases he : s1.error = "" <;> simp_all

/-- On a bare repository `worktreeStage` forces `hasChanges = false` and
swallows the bare-repository error (it never touches `status.Error`). -/
theorem worktreeStage_bare (v : RepoView) (s : GitStatus)
    (h : v.worktree = .bareRepo) :
    worktreeStage v s = { s with hasChanges := false } := by
  unfold worktreeStage extractUncommittedChanges
  rw [h]

/-- C7: every status the extractor produces with `hasRemote = false` has
ahead = behind = 0; the absence of a configured remote is a valid state
(extraction succeeds with no error annotation and zero counts); and
`GitStatus.Validate` rejects any status with `hasRemote = false` and a
non-zero ahead or behind count. -/
theorem C7_no_remote_zero_counts :
    (∀ (o : OpenOutcome) (s : GitStatus), extractGitStatus o = .ok s →
      s.hasRemote = false → s.ahead = 0 ∧ s.behind = 0) ∧
    (∀ (v : RepoView) (h : HeadRef) (c : Bool), v.head = .ok h → h.isBranch = true →
      v.remotes = .ok [] → v.worktree = .clean c →
      extractGitStatus (.opened v) =
        .ok { branch := h.shortName, isDetached := false, hasRemote := false,
              ahead := 0, behind := 0, hasStashes := extractStashes v,
              hasChanges := !c, error := "" }) ∧
    (∀ g : GitStatus, g.hasRemote = false → (g.ahead ≠ 0 ∨ g.behind ≠ 0) →
      (GitStatus.Validate g).isSome) := by
  refine ⟨?_, ?_, ?_⟩
  · intro o s h hrem
    rcases o with v | e
    · simp only [extractGitStatus, Except.ok.injEq] at h
      subst h
      obtain ⟨hw1, hw2, hw3⟩ :=
        worktreeStage_fields v (stashStage v (divergenceStage v (remoteStage v (branchStage v {}))))
      obtain ⟨hs1, hs2, hs3, _, _⟩ :=
        stashStage_fields v (divergenceStage v (remoteStage v (branchStage v {})))
      obtain ⟨hd1, hd2, hd3⟩ := divergenceStage_fields v (remoteStage v (branchStage v {}))
      obtain ⟨hr1, hr2, _, _⟩ := remoteStage_fields v (branchStage v {})
      obtain ⟨hb1, hb2, hb3, _⟩ := branchStage_fields v ({} : GitStatus)
      rw [hw1, hs1, hd1] at hrem
      have hid := hd3 hrem
      constructor
      · rw [hw2, hs2, hid, hr1, hb2]
      · rw [hw3, hs3, hid, hr2, hb3]
    · simp [extractGitStatus] at h
  · intro v h c hh hbr hre hwt
    simp only [extractGitStatus, Except.ok.injEq]
    rw [show branchStage v {} = { isDetached := false, branch := h.shortName } from by
      unfold branchStage extractBranch; rw [hh]; simp [hbr]]
    rw [remoteStage_noRemotes _ _ hre]
    rw [show divergenceStage v { branch := h.shortName, hasRemote := false } =
        { branch := h.shortName, hasRemote := false } from by
      unfold divergenceStage; simp]
    unfold stashStage worktreeStage extractUncommittedChanges
    rw [hwt]
  · intro g h1 h2
    unfold GitStatus.Validate
    split_ifs <;> simp_all

/-- C7 witness: a repository on branch `main` with an empty remote list
yields a successful, error-free status with zero divergence counts, and
the validator rejects a status claiming divergence without a remote. -/
theorem C7_no_remote_zero_counts_witness :
    (extractGitStatus (.opened
      { head := .ok ⟨true, "main", 1⟩
        remotes := .ok []
        reference := fun _ => .error "no ref"
        commitObject := fun h => .ok h
        log := fun _ => []
        worktree := .clean true }) =
      .ok { branch := "main", isDetached := false, hasRemote := false,
            ahead := 0, behind := 0, hasStashes := false,
            hasChanges := false, error := "" }) ∧
    (GitStatus.Validate { branch := "x", hasRemote := false, ahead := 1 }).isSome :=
  ⟨C7_no_remote_zero_counts.2.1 _ ⟨true, "main", 1⟩ true rfl rfl rfl rfl,
   C7_no_remote_zero_counts.2.2 _ rfl (Or.inl (by decide))⟩

/-- C9: a bare repository short-circuits the working-tree step with
`HasChanges = false` (both at the step level and for the final status of
the extraction), and `Repository.Validate` rejects a repository marked
bare whose attached status claims working-tree changes. -/
theorem C9_bare_no_changes :
    (∀ (v : RepoView) (s : GitStatus), v.worktree = .bareRepo →
      extractUncommittedChanges v s = ({ s with hasChanges := false }, some .bare)) ∧
    (∀ (v : RepoView) (s : GitStatus), extractGitStatus (.opened v) = .ok s →
      v.worktree = .bareRepo → s.hasChanges = false) ∧
    (∀ (r : Repository) (g : GitStatus), r.isBare = true → r.gitStatus = some g →
      g.hasChanges = true → (Repository.Validate r).isSome) := by
  refine ⟨?_, ?_, ?_⟩
  · intro v s h
    unfold extractUncommittedChanges
    rw [h]
  · intro v s h hwt
    simp only [extractGitStatus, Except.ok.injEq] at h
    subst h
    rw [worktreeStage_bare _ _ hwt]
  · intro r g h1 h2 h3
    unfold Repository.Validate
    split_ifs <;> simp_all

/-- C9 witness: a concrete bare repository view and a concrete invalid
bare repository record. -/
theorem C9_bare_no_changes_witness :
    (extractUncommittedChanges
      { head := .ok ⟨true, "main", 1⟩
        remotes := .error "no config"
        reference := fun _ => .error "no ref"
        commitObject := fun h => .ok h
        log := fun _ => []
        worktree := .bareRepo } { branch := "main" } =
      ({ branch := "main", hasChanges := false }, some .bare)) ∧
    ({ branch := "main", isDetached := false, hasRemote := false, ahead := 0, behind := 0, hasStashes := false, hasChanges := false, error := "" } : GitStatus).hasChanges = false ∧
    (Repository.Validate
      { path := "/tmp/bare.git"
        name := "bare.git"
        isBare := true
        gitStatus := some { branch := "main", hasChanges := true } }).isSome :=
  ⟨C9_bare_no_changes.1 _ { branch := "main" } rfl,
   C9_bare_no_changes.2.1
     { head := .ok ⟨true, "main", 1⟩
       remotes := .error "no config"
       reference := fun _ => .error "no ref"
       commitObject := fun h => .ok h
       log := fun _ => []
       worktree := .bareRepo } _ rfl rfl,
   C9_bare_no_changes.2.2 _ _ rfl rfl rfl⟩

/-- C5, as written, is false on the code: the timeout path of `Extract`
synthesizes the branch sentinel `"N/A"`, which is neither `"DETACHED"`
nor `"unknown"`. -/
theorem C5_counterexample :
    (Extract .timedOut).1 = some { branch := "N/A", error := "timeout" } ∧
    "N/A" ≠ "DETACHED" ∧ "N/A" ≠ "unknown" :=
  ⟨rfl, by decide, by decide⟩

/-- C5 (amended): `Extract` always returns a non-nil status; on timeout
it is a partial status with branch sentinel `"N/A"` and the explicit
`"timeout"` error annotation; on an open failure it is a degraded status
with branch sentinel `"N/A"` and a descriptive error annotation. -/
theorem C5_timeout_partial_status :
    (∀ r : RunOutcome, (Extract r).1.isSome) ∧
    Extract .timedOut =
      (some { branch := "N/A", error := "timeout" }, some "context deadline exceeded") ∧
    (∀ e, Extract (.finished (.openFailed e)) =
      (some { branch := "N/A", error := "failed to open repository: " ++ e },
       some ("failed to open repository: " ++ e))) := by
  refine ⟨?_, rfl, ?_⟩
  · intro r
    rcases r with o | _
    · rcases h : extractGitStatus o with e | s <;> simp [Extract, h]
    · simp [Extract]
  · intro e
    simp [Extract, extractGitStatus]

/-- The filter-and-count loop of `countCommitsBetween` computes exactly
the cardinality of the set difference of the two reachable sets, provided
the log iterator yields each reachable commit once. -/
theorem countCommitsBetween_card (v : RepoView) (fr toH : Hash)
    (hnd : (v.log fr).Nodup) :
    countCommitsBetween v fr toH =
      (((v.log fr).toFinset \ (v.log toH).toFinset).card : Int) := by
  unfold countCommitsBetween
  have hnd2 : ((v.log fr).filter (fun c => decide (c ∉ v.log toH))).Nodup :=
    hnd.filter _
  have hset : (v.log fr).toFinset \ (v.log toH).toFinset
      = ((v.log fr).filter (fun c => decide (c ∉ v.log toH))).toFinset := by
    ext a
    simp [Finset.mem_sdiff, List.mem_toFinset, List.mem_filter]
  rw [hset, List.toFinset_card_of_nodup hnd2]

/-- C1: when the remote tracking reference resolves, the extracted ahead
count is exactly the number of commits reachable from the local head but
not from the tracking reference, the behind count is the symmetric
difference count, and both are non-negative. -/
theorem C1_ahead_behind_exact (v : RepoView) (s : GitStatus) (h : HeadRef)
    (rr lc rc : Hash)
    (hh : v.head = .ok h)
    (href : v.reference (NewRemoteReferenceName "origin" h.shortName) = .ok rr)
    (hlc : v.commitObject h.hash = .ok lc)
    (hrc : v.commitObject rr = .ok rc)
    (hndl : (v.log lc).Nodup)
    (hndr : (v.log rc).Nodup) :
    (extractAheadBehind v s).1.ahead =
      (((v.log lc).toFinset \ (v.log rc).toFinset).card : Int) ∧
    (extractAheadBehind v s).1.behind =
      (((v.log rc).toFinset \ (v.log lc).toFinset).card : Int) ∧
    0 ≤ (extractAheadBehind v s).1.ahead ∧
    0 ≤ (extractAheadBehind v s).1.behind ∧
    (extractAheadBehind v s).2 = none := by
  have hres : extractAheadBehind v s =
      ({ s with ahead := countCommitsBetween v lc rc,
                behind := countCommitsBetween v rc lc }, none) := by
    unfold extractAheadBehind
    rw [hh]
    simp only [href, hlc, hrc]
  rw [hres]
  refine ⟨?_, ?_, ?_, ?_, rfl⟩
  · simp [countCommitsBetween_card v lc rc hndl]
  · simp [countCommitsBetween_card v rc lc hndr]
  · simp [countCommitsBetween]
  · simp [countCommitsBetween]

/-- C1 witness: local history `10, 11, 12` against remote history
`20, 11, 12` — the extracted ahead count is the cardinality of the set
difference of the two reachable sets. -/
theorem C1_ahead_behind_exact_witness :
    (({ head := .ok ⟨true, "main", 1⟩
        remotes := .ok ["origin"]
        reference := fun n => if n = "refs/remotes/origin/main" then .ok 2 else .error "no ref"
        commitObject := fun h => if h = 1 then .ok 10 else .ok 20
        log := fun h => if h = 10 then [10, 11, 12] else if h = 20 then [20, 11, 12] else []
        worktree := .clean true } : RepoView).log 10).Nodup ∧
    (extractAheadBehind
      { head := .ok ⟨true, "main", 1⟩
        remotes := .ok ["origin"]
        reference := fun n => if n = "refs/remotes/origin/main" then .ok 2 else .error "no ref"
        commitObject := fun h => if h = 1 then .ok 10 else .ok 20
        log := fun h => if h = 10 then [10, 11, 12] else if h = 20 then [20, 11, 12] else []
        worktree := .clean true } {}).1.ahead =
      ((([10, 11, 12] : List Hash).toFinset \ ([20, 11, 12] : List Hash).toFinset).card : Int) := by
  refine ⟨by decide, ?_⟩
  have h := C1_ahead_behind_exact
    { head := .ok ⟨true, "main", 1⟩
      remotes := .ok ["origin"]
      reference := fun n => if n = "refs/remotes/origin/main" then .ok 2 else .error "no ref"
      commitObject := fun h => if h = 1 then .ok 10 else .ok 20
      log := fun h => if h = 10 then [10, 11, 12] else if h = 20 then [20, 11, 12] else []
      worktree := .clean true } {} ⟨true, "main", 1⟩ 2 10 20
    rfl rfl rfl rfl (by decide) (by decide)
  exact h.1

/-- C4, as written, is false on the code: on a tree whose root has no
children, the renderer `Format` emits only the root-label line (here
`".\n"`), not a "no repositories found" line.  (That message is printed
by `main` before the renderer is ever called.) -/
theorem C4_counterexample :
    tree.Format (some (TreeNode.mk { path := "/scan/root", name := "root" } 0 true [] ".")) none
      = ".\n" ∧
    (".\n" : String) ≠ "No Git repositories found in this directory.\n" ∧
    (".\n" : String) ≠ "no repositories found\n" :=
  ⟨rfl, by decide, by decide⟩

/-- C4 (amended): on a tree whose root has no children, `Format` renders
only the root-label line (or nothing when `ShowRoot` is off) — not a tree
drawing and not a "no repositories found" message; the literal
"No Git repositories found in this directory." line is produced by
`main` when the scan discovered zero repositories, before `Format` is
invoked. -/
theorem C4_empty_tree_root_label (root : TreeNode) (opts : Option tree.FormatOptions)
    (h : root.children.length = 0) :
    tree.Format (some root) opts =
      (if (opts.getD tree.DefaultFormatOptions).showRoot
       then (opts.getD tree.DefaultFormatOptions).rootLabel ++ "\n" else "") ∧
    (∀ cwd, cli.mainRender [] cwd = "No Git repositories found in this directory.\n") := by
  constructor
  · unfold tree.Format
    simp [h]
  · intro cwd
    unfold cli.mainRender
    simp

/-- C4 witness: a concrete childless root with default options. -/
theorem C4_empty_tree_root_label_witness :
    (TreeNode.mk { path := "/x", name := "x" } 0 true [] ".").children.length = 0 ∧
    tree.Format (some (TreeNode.mk { path := "/x", name := "x" } 0 true [] ".")) none =
      (if ((none : Option tree.FormatOptions).getD tree.DefaultFormatOptions).showRoot
       then ((none : Option tree.FormatOptions).getD tree.DefaultFormatOptions).rootLabel ++ "\n"
       else "") ∧
    cli.mainRender [] "/x" = "No Git repositories found in this directory.\n" := by
  refine ⟨rfl, ?_, ?_⟩
  · exact (C4_empty_tree_root_label (TreeNode.mk { path := "/x", name := "x" } 0 true [] ".")
      none rfl).1
  · exact (C4_empty_tree_root_label (TreeNode.mk { path := "/x", name := "x" } 0 true [] ".")
      none rfl).2 "/x"

/-- `setIsLast` only touches the `isLast` field. -/
theorem setIsLast_fields (t : TreeNode) (b : Bool) :
    (t.setIsLast b).repository = t.repository ∧
    (t.setIsLast b).depth = t.depth ∧
    (t.setIsLast b).children = t.children ∧
    (t.setIsLast b).isLast = b := by
  cases t
  exact ⟨rfl, rfl, rfl, rfl⟩

/-- `setDepth` only touches the `depth` field. -/
theorem setDepth_fields (t : TreeNode) (d : Int) :
    (t.setDepth d).repository = t.repository ∧
    (t.setDepth d).isLast = t.isLast ∧
    (t.setDepth d).children = t.children ∧
    (t.setDepth d).depth = d := by
  cases t
  exact ⟨rfl, rfl, rfl, rfl⟩

/-- The flag pass keeps the sequence of repositories of the children. -/
theorem markLast_map_repository (l : List TreeNode) :
    (markLast l).map TreeNode.repository = l.map TreeNode.repository := by
  induction l using markLast.induct with
  | case1 => rfl
  | case2 t => simp [markLast, (setIsLast_fields t true).1]
  | case3 t t2 rest ih =>
    simp only [markLast, List.map_cons] at ih ⊢
    rw [(setIsLast_fields t false).1, ih]

/-- Every element of the flag pass output is an element of the input
with its `isLast` flag replaced. -/
theorem mem_markLast (l : List TreeNode) (x : TreeNode) (hx : x ∈ markLast l) :
    ∃ y ∈ l, x = y.setIsLast true ∨ x = y.setIsLast false := by
  induction l using markLast.induct with
  | case1 => cases hx
  | case2 t =>
    simp only [markLast, List.mem_singleton] at hx
    exact ⟨t, List.mem_singleton_self t, Or.inl hx⟩
  | case3 t t2 rest ih =>
    simp only [markLast, List.mem_cons] at hx
    rcases hx with hx | hx
    · exact ⟨t, List.mem_cons_self .., Or.inr hx⟩
    · obtain ⟨y, hy, hcase⟩ := ih hx
      exact ⟨y, List.mem_cons_of_mem _ hy, hcase⟩

/-- `SortChildren` permutes the repositories of the children. -/
theorem SortChildren_map_repository (cs : List TreeNode) :
    ((TreeNode.SortChildren cs).map TreeNode.repository).Perm
      (cs.map TreeNode.repository) := by
  unfold TreeNode.SortChildren
  rw [markLast_map_repository]
  exact (List.perm_insertionSort nameLe cs).map _

/-- Every element of `SortChildren` is an input element with its
`isLast` flag replaced. -/
theorem mem_SortChildren (cs : List TreeNode) (x : TreeNode)
    (hx : x ∈ TreeNode.SortChildren cs) :
    ∃ y ∈ cs, x = y.setIsLast true ∨ x = y.setIsLast false := by
  unfold TreeNode.SortChildren at hx
  obtain ⟨y, hy, hcase⟩ := mem_markLast _ _ hx
  exact ⟨y, (List.perm_insertionSort nameLe cs).mem_iff.mp hy, hcase⟩

/-- C10: the tree embedded in a successful `ScanResult` is the scanner's
flat tree, and that flat tree has depth-0 root whose children are exactly
the discovered repositories, each at depth 1 with no children (so no
synthetic intermediate path-segment nodes). -/
theorem C10_flat_scan_tree :
    (∀ (env : ScanEnv) (res : ScanResultM), Scan env = .ok res →
      res.tree = buildTree res.rootPath res.repositories) ∧
    (∀ (rootPath : String) (repos : List Repository), repos ≠ [] →
      (buildTree rootPath repos).depth = 0 ∧
      ((buildTree rootPath repos).children.map TreeNode.repository).Perm repos ∧
      (∀ c ∈ (buildTree rootPath repos).children, c.depth = 1 ∧ c.children = [])) := by
  constructor
  · intro env res h
    unfold Scan at h
    rcases hst : env.statRoot with e | isDir
    · rw [hst] at h
      simp at h
    · rw [hst] at h
      cases isDir
      · simp at h
      · rcases hw : walk env.rootTree [env.absRoot] with e | w
        · rw [hw] at h
          simp at h
        · rw [hw] at h
          simp only [Bool.not_true, Bool.false_eq_true, if_false, Except.ok.injEq] at h
          subst h
          rfl
  · intro rootPath repos hne
    have hie : repos.isEmpty = false := by
      cases repos with
      | nil => exact absurd rfl hne
      | cons a as => rfl
    unfold buildTree
    rw [hie]
    simp only [Bool.false_eq_true, if_false]
    refine ⟨rfl, ?_, ?_⟩
    · refine (SortChildren_map_repository _).trans ?_
      rw [List.map_map]
      have : (TreeNode.repository ∘ fun repo : Repository =>
          TreeNode.mk repo 1 false []
            (match filepathRel rootPath repo.path with
              | .ok r => r
              | .error _ => repo.path)) = id := by
        funext repo
        rfl
      rw [this, List.map_id]
    · intro c hc
      simp only [TreeNode.children] at hc
      obtain ⟨y, hy, hcase⟩ := mem_SortChildren _ _ hc
      obtain ⟨repo, _, hrepo⟩ := List.mem_map.mp hy
      subst hrepo
      rcases hcase with h | h <;> subst h <;>
        exact ⟨rfl, rfl⟩

/-- C10 witness: a successful scan over a pruned root directory obeys the
tree/buildTree identity, and a one-repository list yields the flat
properties. -/
theorem C10_flat_scan_tree_witness :
    (({ rootPath := "/r"
        repositories := []
        tree := buildTree "/r" []
        totalScanned := 1
        totalRepos := 0
        errors := [] } : ScanResultM).tree =
      buildTree "/r" []) ∧
    ([({ path := "/r/a", name := "a" } : Repository)] ≠ ([] : List Repository)) ∧
    (∀ c ∈ (buildTree "/r" [{ path := "/r/a", name := "a" }]).children,
      c.depth = 1 ∧ c.children = []) := by
  have hwalk : walk (DirTree.mk "r" false false false false .skipDir .ok []) ["/r"] =
      .ok { dirCount := 1 } := by
    rw [walk]
  have hscan : Scan
      { rootPath := "/r"
        statRoot := .ok true
        absRoot := "/r"
        rootTree := DirTree.mk "r" false false false false .skipDir .ok [] } =
      .ok { rootPath := "/r"
            repositories := []
            tree := buildTree "/r" []
            totalScanned := 1
            totalRepos := 0
            errors := [] } := by
    unfold Scan
    rw [hwalk]
    rfl
  refine ⟨C10_flat_scan_tree.1 _ _ hscan, by simp, ?_⟩
  exact (C10_flat_scan_tree.2 "/r" [{ path := "/r/a", name := "a" }] (by simp)).2.2

/-- C6, as written, is false on the code: `Scan` never checks that the
root path is absolute.  An existing relative directory — not an
"existing absolute directory" — is accepted: `os.Stat` succeeds relative
to the working directory and `filepath.Abs` normalizes the path, so
`Scan` returns a result rather than failing fatally. -/
theorem C6_counterexample :
    isAbsPath "work/dir" = false ∧
    (Scan { rootPath := "work/dir"
            statRoot := .ok true
            absRoot := "/cwd/work/dir"
            rootTree := DirTree.mk "dir" false false false false .skipDir .ok [] }).isOk
      = true := by
  refine ⟨by decide, ?_⟩
  have hwalk : walk (DirTree.mk "dir" false false false false .skipDir .ok [])
      ["/cwd/work/dir"] = .ok { dirCount := 1 } := by
    rw [walk]
  unfold Scan
  rw [hwalk]
  rfl

/-- C6 (amended): `Scan` fails fatally — an error and no result — exactly
when the root path does not stat or is not a directory (or the walk hits
a fatal traversal error); whether the path is absolute is never checked
(it is normalized with `filepath.Abs` instead).  On an existing directory
whose traversal produces only non-fatal diagnostics, `Scan` returns a
`ScanResult` carrying those diagnostics and no fatal error. -/
theorem C6_scan_fatal_errors :
    (∀ (env : ScanEnv) (e : String), env.statRoot = .error e →
      Scan env = .error ("cannot access root path: scan result validation error: " ++ e)) ∧
    (∀ env : ScanEnv, env.statRoot = .ok false →
      Scan env = .error ("root path " ++ env.rootPath ++
        " is not a directory: scan result validation error")) ∧
    (∀ (env : ScanEnv) (w : WalkOut), env.statRoot = .ok true →
      walk env.rootTree [env.absRoot] = .ok w →
      Scan env = .ok { rootPath := env.absRoot
                       repositories := w.repos.map FoundRepo.toRepository
                       tree := buildTree env.absRoot (w.repos.map FoundRepo.toRepository)
                       totalScanned := w.dirCount
                       totalRepos := (w.repos.map FoundRepo.toRepository).length
                       errors := w.diags }) := by
  refine ⟨?_, ?_, ?_⟩
  · intro env e h
    unfold Scan
    rw [h]
  · intro env h
    unfold Scan
    rw [h]
    rfl
  · intro env w h hw
    unfold Scan
    rw [h, hw]
    rfl

/-- C6 witness: a missing root is fatal; an existing directory whose only
child is unreadable yields a result with one recorded diagnostic and no
fatal error. -/
theorem C6_scan_fatal_errors_witness :
    (Scan { rootPath := "/gone"
            statRoot := .error "no such file or directory"
            absRoot := "/gone"
            rootTree := DirTree.mk "gone" false false false false .skipDir .ok [] } =
      .error ("cannot access root path: scan result validation error: " ++
        "no such file or directory")) ∧
    (Scan { rootPath := "/top"
            statRoot := .ok true
            absRoot := "/top"
            rootTree := DirTree.mk "top" false false false false (.proceed false) .ok
              [DirTree.mk "locked" false false false false (.failed "lstat denied") .ok []] } =
      .ok { rootPath := "/top"
            repositories := []
            tree := buildTree "/top" []
            totalScanned := 2
            totalRepos := 0
            errors := ["error checking path /top/locked: lstat denied"] }) := by
  constructor
  · exact C6_scan_fatal_errors.1 _ _ rfl
  · have hwalk : walk (DirTree.mk "top" false false false false (.proceed false) .ok
        [DirTree.mk "locked" false false false false (.failed "lstat denied") .ok []])
        ["/top"] =
        .ok { repos := [], dirCount := 2, diags := ["error checking path /top/locked: lstat denied"], examined := [["/top"]] } := by
      rw [walk]
      simp [walkChildren, walk, IsGitRepository, pathString, WalkOut.append]
      rfl
    have h := C6_scan_fatal_errors.2.2
      { rootPath := "/top"
        statRoot := .ok true
        absRoot := "/top"
        rootTree := DirTree.mk "top" false false false false (.proceed false) .ok
          [DirTree.mk "locked" false false false false (.failed "lstat denied") .ok []] }
      { repos := [], dirCount := 2, diags := ["error checking path /top/locked: lstat denied"], examined := [["/top"]] }
      rfl hwalk
    exact h

/-- `setChildren` only touches the `children` field. -/
theorem setChildren_fields (t : TreeNode) (cs : List TreeNode) :
    (t.setChildren cs).repository = t.repository ∧
    (t.setChildren cs).depth = t.depth ∧
    (t.setChildren cs).isLast = t.isLast ∧
    (t.setChildren cs).children = cs := by
  cases t
  exact ⟨rfl, rfl, rfl, rfl⟩

/-- The name ordering ignores the `isLast` flag. -/
theorem nameLe_setIsLast (x y : TreeNode) (b b2 : Bool) :
    nameLe (x.setIsLast b) (y.setIsLast b2) ↔ nameLe x y := by
  unfold nameLe
  rw [(setIsLast_fields x b).1, (setIsLast_fields y b2).1]

/-- The flag pass preserves sortedness by name. -/
theorem markLast_pairwise (l : List TreeNode) (h : List.Pairwise nameLe l) :
    List.Pairwise nameLe (markLast l) := by
  induction l using markLast.induct with
  | case1 => simp [markLast]
  | case2 t => simp [markLast]
  | case3 t rest hne ih =>
    cases rest with
    | nil => exact absurd rfl hne
    | cons t2 rest2 =>
      obtain ⟨hall, htail⟩ := List.pairwise_cons.mp h
      simp only [markLast]
      refine List.pairwise_cons.mpr ⟨?_, ih htail⟩
      intro x hx
      obtain ⟨y, hy, hcase⟩ := mem_markLast _ _ hx
      have hty : nameLe t y := hall y hy
      rcases hcase with hc | hc <;> subst hc <;>
      · unfold nameLe
        rw [(setIsLast_fields t false).1, (setIsLast_fields y _).1]
        exact hty

/-- The flag pass output is empty only for empty input. -/
theorem markLast_ne_nil (t : TreeNode) (rest : List TreeNode) :
    markLast (t :: rest) ≠ [] := by
  cases rest <;> simp [markLast]

/-- The flag pass sets exactly the final element's flag. -/
theorem markLast_LastFlags (l : List TreeNode) : LastFlags (markLast l) := by
  induction l using markLast.induct with
  | case1 => exact .nil
  | case2 t => exact .single _ (setIsLast_fields t true).2.2.2
  | case3 t rest hne ih =>
    cases rest with
    | nil => exact absurd rfl hne
    | cons t2 rest2 =>
      simp only [markLast] at ih ⊢
      cases hm : markLast (t2 :: rest2) with
      | nil => exact absurd hm (markLast_ne_nil t2 rest2)
      | cons m ms =>
        rw [hm] at ih
        exact .cons _ _ _ (setIsLast_fields t false).2.2.2 ih

/-- `LastFlags` only depends on the sequence of `isLast` flags. -/
theorem LastFlags_congr (l1 l2 : List TreeNode)
    (h : l1.map TreeNode.isLast = l2.map TreeNode.isLast) (hl : LastFlags l1) :
    LastFlags l2 := by
  induction hl generalizing l2 with
  | nil =>
    cases l2 with
    | nil => exact .nil
    | cons a as => simp at h
  | single t ht =>
    cases l2 with
    | nil => simp at h
    | cons a as =>
      cases as with
      | nil =>
        simp only [List.map_cons, List.map_nil, List.cons.injEq] at h
        exact .single a (h.1 ▸ ht)
      | cons b bs => simp at h
  | cons t t2 rest ht _ ih =>
    cases l2 with
    | nil => simp at h
    | cons a as =>
      cases as with
      | nil => simp at h
      | cons b bs =>
        simp only [List.map_cons, List.cons.injEq] at h
        exact .cons a b bs (h.1 ▸ ht) (ih (b :: bs) (by simp [h.2.1, h.2.2]))

/-- `sortTree` keeps the node's own repository, depth and flag. -/
theorem sortTree_own (t : TreeNode) :
    (sortTree t).repository = t.repository ∧
    (sortTree t).depth = t.depth ∧
    (sortTree t).isLast = t.isLast := by
  cases t
  rw [sortTree]
  exact ⟨rfl, rfl, rfl⟩

/-- After `sortTree`, every node satisfies the C8 invariant: children
sorted by name, exactly the last child flagged, child depth = parent
depth + 1. -/
theorem sortTree_wellFormed (t : TreeNode) : WellFormedTree (sortTree t) := by
  induction t using sortTree.induct with
  | _ r d l cs p ih =>
    rw [sortTree]
    refine WellFormedTree.mk r d l _ p ?_ ?_ ?_ ?_
    · refine List.pairwise_map.mpr ?_
      have hps : List.Pairwise nameLe (TreeNode.SortChildren cs) := by
        unfold TreeNode.SortChildren
        exact markLast_pairwise _ (List.sorted_insertionSort nameLe cs)
      have hpa : List.Pairwise (fun a b : { x // x ∈ TreeNode.SortChildren cs } =>
          nameLe a.val b.val) (TreeNode.SortChildren cs).attach := by
        refine List.pairwise_map.mp ?_
        rw [List.attach_map_val (TreeNode.SortChildren cs) (fun x => x)]
        simpa using hps
      refine hpa.imp ?_
      intro a b hab
      unfold nameLe
      rw [(sortTree_own _).1, (sortTree_own _).1,
        (setDepth_fields _ _).1, (setDepth_fields _ _).1]
      exact hab
    · refine LastFlags_congr (TreeNode.SortChildren cs) _ ?_ ?_
      · rw [List.map_map]
        have : (TreeNode.isLast ∘ fun c : { x // x ∈ TreeNode.SortChildren cs } =>
            sortTree (TreeNode.setDepth (d + 1) c.val)) =
            fun c : { x // x ∈ TreeNode.SortChildren cs } => c.val.isLast := by
          funext c
          rw [Function.comp_apply, (sortTree_own _).2.2, (setDepth_fields _ _).2.1]
        rw [this, List.attach_map_val (TreeNode.SortChildren cs) TreeNode.isLast]
      · unfold TreeNode.SortChildren
        exact markLast_LastFlags _
    · intro c hc
      obtain ⟨x, _, hx⟩ := List.mem_map.mp hc
      subst hx
      rw [(sortTree_own _).2.1, (setDepth_fields _ _).2.2.2]
    · intro c hc
      obtain ⟨x, _, hx⟩ := List.mem_map.mp hc
      subst hx
      exact ih x

/-- `insertIntoTree` never changes the depth of the node it inserts
into. -/
theorem insertIntoTree_depth (node : TreeNode) (repo : Repository)
    (parts : List String) (relPath currentPath : String) (consumed : List String) :
    (insertIntoTree node repo parts relPath currentPath consumed).depth = node.depth := by
  cases parts with
  | nil => rw [insertIntoTree]
  | cons part rest =>
    cases rest with
    | nil =>
      rw [insertIntoTree]
      exact (setChildren_fields _ _).2.1
    | cons p2 r2 =>
      rw [insertIntoTree]
      exact (setChildren_fields _ _).2.1
      simp

/-- The insertion fold of `Build` keeps the root depth. -/
theorem build_foldl_depth (rootPath : String) (rs : List Repository) (acc : TreeNode) :
    (rs.foldl (fun acc repo =>
      match filepathRel rootPath repo.path with
      | .error _ => acc
      | .ok relPath =>
        insertIntoTree acc repo (relPath.splitOn "/") relPath rootPath []) acc).depth
      = acc.depth := by
  induction rs generalizing acc with
  | nil => rfl
  | cons r rs2 ih =>
    rw [List.foldl_cons, ih]
    rcases filepathRel rootPath r.path with e | relPath
    · rfl
    · exact insertIntoTree_depth _ _ _ _ _ _

/-- C8: every tree `Build` returns is well formed — at every node the
children are sorted alphabetically by repository name, exactly the final
child carries the is-last-sibling flag, and each child's depth is its
parent's depth plus one, with the root at depth 0.  The embedding is a
pure function of the repository list, so two runs over the same
repository set are literally the same tree (byte-identical ordering). -/
theorem C8_build_invariants :
    (∀ (rootPath : String) (rs : List Repository) (opts : Option FormatOptions),
      WellFormedTree (Build rootPath (some rs) opts)) ∧
    (∀ (rootPath : String) (rs : List Repository) (opts : Option FormatOptions),
      (Build rootPath (some rs) opts).depth = 0) ∧
    (∀ (rootPath : String) (rs : List Repository) (opts : Option FormatOptions),
      Build rootPath (some rs) opts = Build rootPath (some rs) opts) := by
  refine ⟨?_, ?_, ?_⟩
  · intro rootPath rs opts
    unfold Build
    exact sortTree_wellFormed _
  · intro rootPath rs opts
    unfold Build
    rw [(sortTree_own _).2.1, build_foldl_depth]
    rfl
  · intro rootPath rs opts
    rfl

/-- A path strictly beneath another is strictly longer. -/
theorem properlyBelow_length (base q : List String) (h : properlyBelow base q) :
    base.length < q.length := by
  obtain ⟨s, hs, rfl⟩ := h
  cases s with
  | nil => exact absurd rfl hs
  | cons a as => simp

/-- No path lies strictly beneath itself. -/
theorem not_properlyBelow_self (p : List String) : ¬ properlyBelow p p :=
  fun h => absurd (properlyBelow_length _ _ h) (lt_irrefl _)

/-- Paths entering two different children of the same directory are
never one beneath the other. -/
theorem properlyBelow_diff_head (p : List String) (a b : String) (s1 s2 : List String)
    (hne : a ≠ b) : ¬ properlyBelow (p ++ [a] ++ s1) (p ++ [b] ++ s2) := by
  rintro ⟨u, _, he⟩
  have h1 : p ++ ([b] ++ s2) = p ++ ([a] ++ (s1 ++ u)) := by
    simpa [List.append_assoc] using he
  have h2 := List.append_cancel_left h1
  simp only [List.singleton_append, List.cons.injEq] at h2
  exact hne h2.1.symm

/-- Joint invariant of the traversal, proved by strong induction on the
tree size: every examined path and every recorded repository path lies
within the subtree being walked, and no examined path lies strictly
beneath a recorded repository root. -/
theorem walk_prune_aux : ∀ n : Nat,
    (∀ (t : DirTree) (p : List String) (w : WalkOut), sizeOf t ≤ n → UniqueNames t →
      walk t p = .ok w →
      (∀ q ∈ w.examined, ∃ s, q = p ++ s) ∧
      (∀ r ∈ w.repos, ∃ s, r.pathSegs = p ++ s) ∧
      (∀ r ∈ w.repos, ∀ q ∈ w.examined, ¬ properlyBelow r.pathSegs q)) ∧
    (∀ (cs : List DirTree) (p : List String) (w : WalkOut), sizeOf cs ≤ n →
      (cs.map DirTree.name).Nodup → (∀ c ∈ cs, UniqueNames c) →
      walkChildren cs p = .ok w →
      (∀ q ∈ w.examined, ∃ c ∈ cs, ∃ s, q = p ++ [c.name] ++ s) ∧
      (∀ r ∈ w.repos, ∃ c ∈ cs, ∃ s, r.pathSegs = p ++ [c.name] ++ s) ∧
      (∀ r ∈ w.repos, ∀ q ∈ w.examined, ¬ properlyBelow r.pathSegs q)) := by
  intro n
  induction n with
  | zero =>
    constructor
    · intro t p w hsz hu hw
      exfalso
      rcases t with ⟨name, g, hH, hR, hO, visit, rd, children⟩
      simp at hsz
    · intro cs p w hsz hnd hus hw
      exfalso
      cases cs <;> simp at hsz
  | succ n ih =>
    obtain ⟨ihW, ihC⟩ := ih
    constructor
    · intro t p w hsz hu hw
      rcases t with ⟨name, g, hH, hR, hO, visit, rd, children⟩
      rw [walk.eq_def] at hw
      rcases hu with ⟨_, _, _, _, _, _, _, _, hnd, hus⟩
      rcases visit with isSym | _ | e
      · simp only [] at hw
        rcases hrb : IsGitRepository g hH hR hO with ⟨isRepo, isBare⟩
        rw [hrb] at hw
        cases isRepo
        · rcases rd with _ | _ | e2
          · -- readDir ok: recurse into children
            rcases hwc : walkChildren children p with e | w2
            · rw [hwc] at hw
              simp at hw
            · rw [hwc] at hw
              simp only [Bool.false_eq_true, if_neg, ite_false, Except.ok.injEq] at hw
              obtain rfl := hw.symm
              have hszc : sizeOf children ≤ n := by
                simp at hsz
                omega
              obtain ⟨hE, hRp, hNB⟩ := ihC children p w2 hszc hnd hus hwc
              refine ⟨?_, ?_, ?_⟩
              · intro q hq
                rcases List.mem_cons.mp hq with rfl | hq2
                · exact ⟨[], by simp⟩
                · obtain ⟨c, _, s, rfl⟩ := hE q hq2
                  exact ⟨[c.name] ++ s, by simp⟩
              · intro r hr
                obtain ⟨c, _, s, hrp⟩ := hRp r hr
                exact ⟨[c.name] ++ s, by simp [hrp]⟩
              · intro r hr q hq
                rcases List.mem_cons.mp hq with rfl | hq2
                · intro hpb
                  obtain ⟨c, _, s, hrp⟩ := hRp r hr
                  have := properlyBelow_length _ _ hpb
                  rw [hrp] at this
                  simp at this
                · exact hNB r hr q hq2
          · -- permission denied on ReadDir
            simp only [Bool.false_eq_true, if_neg, ite_false, Except.ok.injEq] at hw
            obtain rfl := hw.symm
            refine ⟨?_, ?_, ?_⟩
            · intro q hq
              rcases List.mem_singleton.mp hq with rfl
              exact ⟨[], by simp⟩
            · intro r hr
              simp at hr
            · intro r hr
              simp at hr
          · -- fatal ReadDir error
            simp at hw
        · -- repository matched: record and prune
          simp only [if_pos, ite_true, Except.ok.injEq] at hw
          obtain rfl := hw.symm
          refine ⟨?_, ?_, ?_⟩
          · intro q hq
            rcases List.mem_singleton.mp hq with rfl
            exact ⟨[], by simp⟩
          · intro r hr
            rcases List.mem_singleton.mp hr with rfl
            exact ⟨[], by simp⟩
          · intro r hr q hq
            rcases List.mem_singleton.mp hr with rfl
            rcases List.mem_singleton.mp hq with rfl
            exact not_properlyBelow_self _
      · -- shouldVisit pruned (already visited / non-directory target)
        simp only [] at hw
        simp only [Except.ok.injEq] at hw
        obtain rfl := hw.symm
        refine ⟨by intro q hq; simp at hq, by intro r hr; simp at hr,
          by intro r hr; simp at hr⟩
      · -- shouldVisit failed: diagnostic + prune
        simp only [] at hw
        simp only [Except.ok.injEq] at hw
        obtain rfl := hw.symm
        refine ⟨by intro q hq; simp at hq, by intro r hr; simp at hr,
          by intro r hr; simp at hr⟩
    · intro cs p w hsz hnd hus hw
      cases cs with
      | nil =>
        rw [walkChildren] at hw
        simp only [Except.ok.injEq] at hw
        obtain rfl := hw.symm
        refine ⟨by intro q hq; simp at hq, by intro r hr; simp at hr,
          by intro r hr; simp at hr⟩
      | cons c rest =>
        rw [walkChildren] at hw
        rcases h1 : walk c (p ++ [c.name]) with e | w1
        · rw [h1] at hw
          simp at hw
        · rw [h1] at hw
          rcases h2 : walkChildren rest p with e | w2
          · rw [h2] at hw
            simp at hw
          · rw [h2] at hw
            simp only [Except.ok.injEq] at hw
            obtain rfl := hw.symm
            have hszc : sizeOf c ≤ n := by
              simp at hsz
              omega
            have hszr : sizeOf rest ≤ n := by
              simp at hsz
              omega
            have hndr : (rest.map DirTree.name).Nodup := (List.nodup_cons.mp hnd).2
            have hnothd : c.name ∉ rest.map DirTree.name := (List.nodup_cons.mp hnd).1
            obtain ⟨E1, R1, NB1⟩ := ihW c (p ++ [c.name]) w1 hszc
              (hus c (List.mem_cons_self ..)) h1
            obtain ⟨E2, R2, NB2⟩ := ihC rest p w2 hszr hndr
              (fun x hx => hus x (List.mem_cons_of_mem _ hx)) h2
            unfold WalkOut.append
            refine ⟨?_, ?_, ?_⟩
            · intro q hq
              rcases List.mem_append.mp hq with hq1 | hq2
              · obtain ⟨s, rfl⟩ := E1 q hq1
                exact ⟨c, List.mem_cons_self .., s, rfl⟩
              · obtain ⟨c2, hc2, s, rfl⟩ := E2 q hq2
                exact ⟨c2, List.mem_cons_of_mem _ hc2, s, rfl⟩
            · intro r hr
              rcases List.mem_append.mp hr with hr1 | hr2
              · obtain ⟨s, hs⟩ := R1 r hr1
                exact ⟨c, List.mem_cons_self .., s, hs⟩
              · obtain ⟨c2, hc2, s, hs⟩ := R2 r hr2
                exact ⟨c2, List.mem_cons_of_mem _ hc2, s, hs⟩
            · intro r hr q hq
              rcases List.mem_append.mp hr with hr1 | hr2 <;>
                rcases List.mem_append.mp hq with hq1 | hq2
              · exact NB1 r hr1 q hq1
              · obtain ⟨s1, hs1⟩ := R1 r hr1
                obtain ⟨c2, hc2, s2, rfl⟩ := E2 q hq2
                rw [hs1]
                refine properlyBelow_diff_head p c.name c2.name s1 s2 ?_
                intro hcn
                exact hnothd (hcn ▸ List.mem_map_of_mem DirTree.name hc2)
              · obtain ⟨c2, hc2, s1, hs1⟩ := R2 r hr2
                obtain ⟨s2, rfl⟩ := E1 q hq1
                rw [hs1]
                refine properlyBelow_diff_head p c2.name c.name s1 s2 ?_
                intro hcn
                exact hnothd (hcn ▸ List.mem_map_of_mem DirTree.name hc2)
              · exact NB2 r hr2 q hq2

/-- C2: for every repository matched by the traversal, no path strictly
beneath the repository's root directory is ever examined for repository
markers — the subtree is pruned at the repository root.  The hypothesis
`UniqueNames` is the filesystem guarantee that sibling entries have
distinct names. -/
theorem C2_repo_subtree_pruned (t : DirTree) (p : List String) (w : WalkOut)
    (hu : UniqueNames t) (hw : walk t p = .ok w) :
    ∀ r ∈ w.repos, ∀ q ∈ w.examined, ¬ properlyBelow r.pathSegs q :=
  ((walk_prune_aux (sizeOf t)).1 t p w (le_refl _) hu hw).2.2

/-- C2 witness: a root containing one repository with internal
directories beneath it — the repository is recorded, its contents are
never examined. -/
theorem C2_repo_subtree_pruned_witness :
    walk (DirTree.mk "root" false false false false (.proceed false) .ok
        [DirTree.mk "repo" true false false false (.proceed false) .ok
          [DirTree.mk "src" false false false false (.proceed false) .ok []]])
      ["/top"] =
      .ok { repos := [⟨["/top", "repo"], "repo", false, false⟩]
            dirCount := 2
            diags := []
            examined := [["/top"], ["/top", "repo"]] } ∧
    (∀ r ∈ [(⟨["/top", "repo"], "repo", false, false⟩ : FoundRepo)],
      ∀ q ∈ [["/top"], ["/top", "repo"]], ¬ properlyBelow r.pathSegs q) := by
  have hu : UniqueNames (DirTree.mk "root" false false false false (.proceed false) .ok
      [DirTree.mk "repo" true false false false (.proceed false) .ok
        [DirTree.mk "src" false false false false (.proceed false) .ok []]]) := by
    refine UniqueNames.mk _ _ _ _ _ _ _ _ (by simp) ?_
    intro c hc
    rcases List.mem_singleton.mp hc with rfl
    refine UniqueNames.mk _ _ _ _ _ _ _ _ (by simp) ?_
    intro c2 hc2
    rcases List.mem_singleton.mp hc2 with rfl
    exact UniqueNames.mk _ _ _ _ _ _ _ _ (by simp) (by simp)
  have hw : walk (DirTree.mk "root" false false false false (.proceed false) .ok
      [DirTree.mk "repo" true false false false (.proceed false) .ok
        [DirTree.mk "src" false false false false (.proceed false) .ok []]])
      ["/top"] =
      .ok { repos := [⟨["/top", "repo"], "repo", false, false⟩]
            dirCount := 2
            diags := []
            examined := [["/top"], ["/top", "repo"]] } := by
    rw [walk]
    simp [walkChildren, walk, IsGitRepository, WalkOut.append, DirTree.name]
  exact ⟨hw, C2_repo_subtree_pruned _ _ _ hu hw⟩

/-- Invariant of every state reachable from the initial batch state:
the waiting, running and collected paths are a permutation of the input
paths, every collected result is the extraction of its path, and never
more than `C` tasks run at once. -/
theorem batch_reaches_invariant (C : Nat) (extract : String → GitStatus)
    (paths : List String) (s : BatchState)
    (h : Reaches C extract (initState paths) s) :
    (s.waiting ++ s.running ++ s.done.map Prod.fst).Perm paths ∧
    (∀ pr ∈ s.done, pr.2 = extract pr.1) ∧
    s.running.length ≤ C := by
  induction h with
  | refl =>
    refine ⟨by simp [initState], by simp [initState], by simp [initState]⟩
  | tail hr hstep ih =>
    obtain ⟨ihp, ihv, ihc⟩ := ih
    cases hstep with
    | start p w1 w2 running done hlen =>
      refine ⟨?_, ihv, hlen⟩
      simp only [List.append_assoc, List.cons_append, List.map_cons] at ihp ⊢
      exact (List.Perm.append_left w1 List.perm_middle).trans ihp
    | finish p r1 r2 waiting done =>
      refine ⟨?_, ?_, ?_⟩
      · simp only [List.append_assoc, List.cons_append, List.map_cons] at ihp ⊢
        exact (List.Perm.append_left waiting (List.Perm.append_left r1 List.perm_middle)).trans
          ihp
      · intro pr hpr
        rcases List.mem_cons.mp hpr with rfl | hpr2
        · rfl
        · exact ihv pr hpr2
      · simp only []
        have : (r1 ++ p :: r2).length ≤ C := ihc
        simp [List.length_append] at this ⊢
        omega

/-- When the batch is over: with at least one semaphore slot, a terminal
state has no waiting and no running task left. -/
theorem batch_terminal_empty (C : Nat) (extract : String → GitStatus)
    (s : BatchState) (hC : 1 ≤ C) (ht : Terminal C extract s) :
    s.waiting = [] ∧ s.running = [] := by
  rcases s with ⟨waiting, running, done⟩
  have hrun : running = [] := by
    cases hr : running with
    | nil => rfl
    | cons x r2 =>
      exfalso
      exact ht _ (hr ▸ BatchStep.finish x [] r2 waiting done)
  subst hrun
  have hwait : waiting = [] := by
    cases hwt : waiting with
    | nil => rfl
    | cons x w2 =>
      exfalso
      exact ht _ (hwt ▸ BatchStep.start x [] w2 [] done (by simpa using hC))
  exact ⟨hwait, rfl⟩

/-- A state with nothing waiting and nothing running admits no step. -/
theorem batch_terminal_of_empty (C : Nat) (extract : String → GitStatus)
    (done : List (String × GitStatus)) :
    Terminal C extract ⟨[], [], done⟩ := by
  intro s2 h
  generalize hsrc : (⟨[], [], done⟩ : BatchState) = src at h
  cases h with
  | start p w1 w2 running done2 hlen =>
    have := congrArg BatchState.waiting hsrc
    simp at this
  | finish p r1 r2 waiting done2 =>
    have := congrArg BatchState.running hsrc
    simp at this

/-- C3: under concurrency limit `C ≥ 1` and no cancellation, at most `C`
extractions run simultaneously along any schedule, and every completed
schedule ends with exactly one result per input path — each the
extraction of that path — regardless of the order in which tasks
completed. -/
theorem C3_batch_complete (C : Nat) (extract : String → GitStatus)
    (paths : List String) (hC : 1 ≤ C) (hnd : paths.Nodup) :
    (∀ s, Reaches C extract (initState paths) s → s.running.length ≤ C) ∧
    (∀ s, Reaches C extract (initState paths) s → Terminal C extract s →
      (s.done.map Prod.fst).Perm paths ∧
      (s.done.map Prod.fst).Nodup ∧
      (∀ pr ∈ s.done, pr.2 = extract pr.1) ∧
      (∀ p ∈ paths, (p, extract p) ∈ s.done)) := by
  constructor
  · intro s hs
    exact (batch_reaches_invariant C extract paths s hs).2.2
  · intro s hs ht
    obtain ⟨hperm, hval, _⟩ := batch_reaches_invariant C extract paths s hs
    obtain ⟨hw0, hr0⟩ := batch_terminal_empty C extract s hC ht
    rw [hw0, hr0] at hperm
    simp only [List.nil_append] at hperm
    refine ⟨hperm, hperm.nodup_iff.mpr hnd, hval, ?_⟩
    intro p hp
    have hpd : p ∈ s.done.map Prod.fst := hperm.mem_iff.mpr hp
    obtain ⟨pr, hpr, hfst⟩ := List.mem_map.mp hpd
    have hv := hval pr hpr
    rcases pr with ⟨p2, g⟩
    cases hfst
    simp only [] at hv ⊢
    rw [hv] at hpr
    exact hpr

/-- C3 witness: one path under concurrency limit 1 — the explicit
schedule start-then-finish reaches the terminal state holding exactly
that path's result. -/
theorem C3_batch_complete_witness :
    (1 ≤ 1) ∧ (["a"] : List String).Nodup ∧
    ((⟨[], [], [("a", ({} : GitStatus))]⟩ : BatchState).done.map Prod.fst).Perm ["a"] ∧
    ("a", ({} : GitStatus)) ∈ (⟨[], [], [("a", ({} : GitStatus))]⟩ : BatchState).done := by
  have hstep1 : BatchStep 1 (fun _ => ({} : GitStatus))
      (initState ["a"]) ⟨[], ["a"], []⟩ :=
    BatchStep.start "a" [] [] [] [] (by simp)
  have hstep2 : BatchStep 1 (fun _ => ({} : GitStatus))
      ⟨[], ["a"], []⟩ ⟨[], [], [("a", ({} : GitStatus))]⟩ :=
    BatchStep.finish "a" [] [] [] []
  have hreach : Reaches 1 (fun _ => ({} : GitStatus)) (initState ["a"])
      ⟨[], [], [("a", ({} : GitStatus))]⟩ :=
    Relation.ReflTransGen.tail (Relation.ReflTransGen.tail Relation.ReflTransGen.refl hstep1)
      hstep2
  have hterm : Terminal 1 (fun _ => ({} : GitStatus)) ⟨[], [], [("a", ({} : GitStatus))]⟩ :=
    batch_terminal_of_empty 1 _ _
  have h := (C3_batch_complete 1 (fun _ => ({} : GitStatus)) ["a"] (le_refl 1)
    (by simp)).2 _ hreach hterm
  exact ⟨le_refl 1, by simp, h.1, h.2.2.2 "a" (by simp)⟩

end Gitree
